import Mathlib

/-!
Verification of the caption-segmentation and composition-timeline core of a
short-form video generator, shallowly embedded in Lean 4.

Times (seconds) are modelled by `ℚ`; word/caption records mirror the Python
dictionaries used by `subtitle_processor.py` and `video_composer.py`.
External video/audio clips (moviepy) are modelled by their durations, with
each moviepy primitive (`speedx`, `subclip`, `concatenate_videoclips`)
reflected by its documented effect on the duration.
-/

namespace Claud

/-- One transcribed word with its timing window, as produced by
`process_voiceover_to_subtitles` (keys `word`, `start`, `end`). -/
structure Word where
  word : String
  start : ℚ
  «end» : ℚ
  deriving Repr, DecidableEq, Inhabited

/-- One subtitle line, as produced by `split_text_into_lines`
(keys `text`, `start`, `end`). -/
structure Caption where
  text : String
  start : ℚ
  «end» : ℚ
  deriving Repr, DecidableEq, Inhabited

/- Configuration constants from `config.py`. -/

/-- Constant `MAX_CHARS_PER_LINE = 60` from `config.py`. -/
def MAX_CHARS_PER_LINE : Nat := 60

/-- Constant `MAX_DURATION_PER_LINE = 2.5` from `config.py`. -/
def MAX_DURATION_PER_LINE : ℚ := 5 / 2

/-- Constant `MIN_GAP_BETWEEN_LINES = 1.5` from `config.py`. -/
def MIN_GAP_BETWEEN_LINES : ℚ := 3 / 2

/-- Constant `TITLE_DURATION = 4` from `config.py`. -/
def TITLE_DURATION : ℚ := 4

/-- Constant `SLOW_MOTION_FACTOR = 0.7` from `config.py`. -/
def SLOW_MOTION_FACTOR : ℚ := 7 / 10

/-- Predicate `is_sentence_end` from `subtitle_processor.py`:
`re.search(r'[.!?。！？।]$', word)`.  The regex matches when the final
character is a sentence terminator, or — because `$` also matches just
before a single trailing newline — when the character before a final
newline is one. -/
def is_sentence_end (word : String) : Bool :=
  let cls : List Char := ['.', '!', '?', '。', '！', '？', '।']
  match word.data.reverse with
  | [] => false
  | c :: rest =>
    if c = '\n' then
      match rest with
      | c2 :: _ => cls.contains c2
      | [] => false
    else cls.contains c

/-- Running character count of a word run: each word contributes
`len(word) + 1` (the `+1` is the space separator), exactly as
`current_chars += len(word) + 1` accumulates it. -/
def charsum (ws : List Word) : Nat := (ws.map (fun w => w.word.length + 1)).sum

/-- The flush test of `split_text_into_lines`, evaluated after appending
word `w`: `should_break` is set when the running character count reaches
`max_chars`, when the line duration reaches `max_duration`, when the word
ends a sentence, when the gap to the next word (if any) reaches `min_gap`,
or when there is no next word (end of data). -/
def breakCond (mc : Nat) (md mg : ℚ) (lineStart : ℚ) (chars : Nat)
    (w : Word) (next? : Option Word) : Bool :=
  decide (mc ≤ chars) ||
  decide (md ≤ w.«end» - lineStart) ||
  is_sentence_end w.word ||
  (match next? with
   | some nw => decide (mg ≤ nw.start - w.«end»)
   | none => false) ||
  next?.isNone

/-- The word-by-word loop of `split_text_into_lines`.  State:
`current_line` (words of the line so far, as strings), `current_start`
(`none` encodes Python's `None`), `current_chars`. -/
def splitAux (mc : Nat) (md mg : ℚ) :
    List Word → List String → Option ℚ → Nat → List Caption
  | [], _, _, _ => []
  | w :: rest, current_line, current_start, current_chars =>
    if breakCond mc md mg (current_start.getD w.start)
        (current_chars + (w.word.length + 1)) w rest.head? then
      { text := " ".intercalate (current_line ++ [w.word]),
        start := current_start.getD w.start, «end» := w.«end» } ::
        splitAux mc md mg rest [] none 0
    else
      splitAux mc md mg rest (current_line ++ [w.word])
        (some (current_start.getD w.start)) (current_chars + (w.word.length + 1))

/-- Function `split_text_into_lines(data, max_chars, max_duration, min_gap)` from
`subtitle_processor.py`.  The `if not data: return []` guard is subsumed by
the empty case of the loop. -/
def split_text_into_lines (data : List Word) (max_chars : Nat)
    (max_duration min_gap : ℚ) : List Caption :=
  splitAux max_chars max_duration min_gap data [] none 0

/-- The same loop, recording each emitted line as its run of `Word`s
instead of a rendered `Caption`; used to reason about which words make up
each line.  The accumulator `acc` carries the words of the line in
progress (so `current_start` is `acc`'s first start and `current_chars` is
`charsum acc`). -/
def splitRuns (mc : Nat) (md mg : ℚ) : List Word → List Word → List (List Word)
  | [], _ => []
  | w :: rest, acc =>
    if breakCond mc md mg ((acc ++ [w]).headI).start (charsum (acc ++ [w]))
        w rest.head? then
      (acc ++ [w]) :: splitRuns mc md mg rest []
    else
      splitRuns mc md mg rest (acc ++ [w])

/-- Rendering of a (nonempty) word run as the `Caption` that
`split_text_into_lines` emits for it: space-joined text, start of the
first word, end of the last word. -/
def mkCaption (run : List Word) : Caption :=
  { text := " ".intercalate (run.map Word.word),
    start := run.headI.start,
    «end» := (run.getLastD default).«end» }

/-! ### Facts about `String.intercalate` -/

theorem intercalate_go_append (s : String) :
    ∀ (l : List String) (x y : String),
      String.intercalate.go (x ++ y) s l = x ++ String.intercalate.go y s l
  | [], _, _ => rfl
  | a :: as, x, y => by
    show String.intercalate.go (x ++ y ++ s ++ a) s as
      = x ++ String.intercalate.go (y ++ s ++ a) s as
    rw [String.append_assoc x y s, String.append_assoc x (y ++ s) a,
      intercalate_go_append s as x (y ++ s ++ a)]

theorem intercalate_cons_cons (s a b : String) (l : List String) :
    String.intercalate s (a :: b :: l) = a ++ s ++ String.intercalate s (b :: l) := by
  show String.intercalate.go a s (b :: l) = a ++ s ++ String.intercalate.go b s l
  show String.intercalate.go (a ++ s ++ b) s l = _
  rw [intercalate_go_append s l (a ++ s) b]

theorem intercalate_append_of_ne_nil (s : String) :
    ∀ (l₁ l₂ : List String), l₁ ≠ [] → l₂ ≠ [] →
      String.intercalate s (l₁ ++ l₂)
        = String.intercalate s l₁ ++ s ++ String.intercalate s l₂
  | [], _, h₁, _ => absurd rfl h₁
  | [a], l₂, _, h₂ => by
    match l₂, h₂ with
    | b :: m, _ =>
      show String.intercalate s (a :: b :: m) = String.intercalate s [a] ++ s ++ _
      rw [intercalate_cons_cons]
      rfl
  | a :: c :: u, l₂, _, h₂ => by
    have ih := intercalate_append_of_ne_nil s (c :: u) l₂ (by simp) h₂
    show String.intercalate s (a :: (c :: u ++ l₂)) = _
    rw [show (c :: u ++ l₂ : List String) = c :: (u ++ l₂) from rfl,
      intercalate_cons_cons, show (c :: (u ++ l₂) : List String) = c :: u ++ l₂ from rfl,
      ih, intercalate_cons_cons]
    simp [String.append_assoc]

theorem intercalate_map_intercalate (s : String) :
    ∀ (ll : List (List String)), (∀ l ∈ ll, l ≠ []) →
      String.intercalate s (ll.map (String.intercalate s))
        = String.intercalate s ll.flatten
  | [], _ => rfl
  | [a], _ => by
    simp only [List.map_cons, List.map_nil, List.flatten_cons, List.flatten_nil,
      List.append_nil]
    rfl
  | a :: b :: u, h => by
    have ih := intercalate_map_intercalate s (b :: u) (fun l hl => h l (by simp [hl]))
    rw [List.map_cons] at ih
    have hbu : (b :: u).flatten ≠ [] := by
      have hb : b ≠ [] := h b (by simp)
      simp only [List.flatten_cons]
      exact fun hc => hb (List.append_eq_nil.mp hc).1
    show String.intercalate s
        (String.intercalate s a :: (b :: u).map (String.intercalate s))
      = String.intercalate s (a ++ (b :: u).flatten)
    rw [show ((b :: u).map (String.intercalate s) : List String)
        = String.intercalate s b :: u.map (String.intercalate s) from rfl,
      intercalate_cons_cons, ih,
      intercalate_append_of_ne_nil s a (b :: u).flatten (h a (by simp)) hbu]

/-! ### The caption list is the rendering of the run decomposition -/

theorem splitAux_eq_splitRuns (mc : Nat) (md mg : ℚ) :
    ∀ (data acc : List Word),
      splitAux mc md mg data (acc.map Word.word) ((acc.head?).map Word.start)
          (charsum acc)
        = (splitRuns mc md mg data acc).map mkCaption := by
  intro data
  induction data with
  | nil => intro acc; rfl
  | cons w rest ih =>
    intro acc
    have hstart : ((acc.head?).map Word.start).getD w.start
        = ((acc ++ [w]).headI).start := by
      cases acc <;> rfl
    have hchars : charsum acc + (w.word.length + 1) = charsum (acc ++ [w]) := by
      simp [charsum]
    rw [splitAux, splitRuns, hstart, hchars]
    by_cases hb : breakCond mc md mg ((acc ++ [w]).headI).start
        (charsum (acc ++ [w])) w rest.head? = true
    · rw [if_pos hb, if_pos hb, List.map_cons]
      congr 1
      · show _ = mkCaption (acc ++ [w])
        unfold mkCaption
        congr 1
        · simp
        · simp [List.getLastD_concat]
      · exact ih []
    · rw [if_neg hb, if_neg hb]
      have h1 : acc.map Word.word ++ [w.word] = (acc ++ [w]).map Word.word := by simp
      have h2 : some ((acc ++ [w]).headI).start
          = ((acc ++ [w]).head?).map Word.start := by
        cases acc <;> rfl
      rw [h1, h2]
      exact ih (acc ++ [w])

/-- Function `split_text_into_lines` renders exactly the run decomposition computed by
`splitRuns` on an empty accumulator. -/
theorem split_eq_runs (data : List Word) (mc : Nat) (md mg : ℚ) :
    split_text_into_lines data mc md mg
      = (splitRuns mc md mg data []).map mkCaption :=
  splitAux_eq_splitRuns mc md mg data []

theorem splitRuns_flatten (mc : Nat) (md mg : ℚ) :
    ∀ (data acc : List Word), data ≠ [] →
      (splitRuns mc md mg data acc).flatten = acc ++ data := by
  intro data
  induction data with
  | nil => intro acc h; exact absurd rfl h
  | cons w rest ih =>
    intro acc _
    rw [splitRuns]
    by_cases hb : breakCond mc md mg ((acc ++ [w]).headI).start
        (charsum (acc ++ [w])) w rest.head? = true
    · rw [if_pos hb, List.flatten_cons]
      cases rest with
      | nil => simp [splitRuns]
      | cons r rs => rw [ih [] (by simp)]; simp
    · rw [if_neg hb]
      have hrest : rest ≠ [] := by
        intro h
        subst h
        simp [breakCond] at hb
      rw [ih (acc ++ [w]) hrest]
      simp

theorem splitRuns_ne_nil (mc : Nat) (md mg : ℚ) :
    ∀ (data acc : List Word), ∀ run ∈ splitRuns mc md mg data acc, run ≠ [] := by
  intro data
  induction data with
  | nil => intro acc run h; simp [splitRuns] at h
  | cons w rest ih =>
    intro acc run hrun
    rw [splitRuns] at hrun
    by_cases hb : breakCond mc md mg ((acc ++ [w]).headI).start
        (charsum (acc ++ [w])) w rest.head? = true
    · rw [if_pos hb, List.mem_cons] at hrun
      rcases hrun with rfl | hrun
      · simp
      · exact ih [] run hrun
    · rw [if_neg hb] at hrun
      exact ih (acc ++ [w]) run hrun

/-! ### No break condition holds strictly inside an emitted run -/

/-- A run is `runOk` when the flush test, evaluated after any of its
non-final words (with the line start, the running character count of the
prefix, and the following word of the run), is false. -/
def runOk (mc : Nat) (md mg : ℚ) (run : List Word) : Prop :=
  ∀ p w1 w2 s, run = p ++ w1 :: w2 :: s →
    breakCond mc md mg run.headI.start (charsum (p ++ [w1])) w1 (some w2) = false

theorem runOk_nil (mc : Nat) (md mg : ℚ) : runOk mc md mg [] := by
  intro p w1 w2 s h
  exact absurd h.symm (by simp)

theorem concat_eq_append_cons_cons {α : Type} (acc : List α) (w : α)
    (p : List α) (w1 w2 : α) (s : List α) (h : acc ++ [w] = p ++ w1 :: w2 :: s) :
    (s = [] ∧ acc = p ++ [w1] ∧ w2 = w) ∨
      (∃ s', s = s' ++ [w] ∧ acc = p ++ w1 :: w2 :: s') := by
  rcases s.eq_nil_or_concat with hs | ⟨s', b, hs⟩
  · subst hs
    left
    have h' : acc ++ [w] = (p ++ [w1]) ++ [w2] := by simpa using h
    have h2 := List.append_inj' h' rfl
    exact ⟨rfl, h2.1, (List.cons.injEq _ _ _ _ ▸ h2.2).1.symm⟩
  · subst hs
    right
    have h' : acc ++ [w] = (p ++ w1 :: w2 :: s') ++ [b] := by simp [h]
    have h2 := List.append_inj' h' rfl
    have hwb : w = b := (List.cons.injEq _ _ _ _ ▸ h2.2).1
    exact ⟨s', by rw [hwb, List.concat_eq_append], h2.1⟩

theorem runOk_concat (mc : Nat) (md mg : ℚ) (acc : List Word) (w : Word)
    (Hacc : runOk mc md mg acc)
    (Hlast : acc ≠ [] → breakCond mc md mg acc.headI.start (charsum acc)
      (acc.getLastD default) (some w) = false) :
    runOk mc md mg (acc ++ [w]) := by
  intro p w1 w2 s heq
  have hne : acc ≠ [] := by
    intro h
    subst h
    rw [List.nil_append] at heq
    rcases p with _ | ⟨x, q⟩ <;> simp at heq
  have hhead : (acc ++ [w]).headI = acc.headI := by
    cases acc with
    | nil => exact absurd rfl hne
    | cons a t => rfl
  rcases concat_eq_append_cons_cons acc w p w1 w2 s heq with
    ⟨hs, hacc, hw2⟩ | ⟨s', hs, hacc⟩
  · have hl : acc.getLastD default = w1 := by
      rw [hacc]
      exact List.getLastD_concat _ _ _
    rw [hhead, hw2, ← hacc, ← hl]
    exact Hlast hne
  · rw [hhead]
    exact Hacc p w1 w2 s' hacc

theorem splitRuns_runOk (mc : Nat) (md mg : ℚ) :
    ∀ (data acc : List Word), runOk mc md mg acc →
      (∀ d dr, data = d :: dr → acc ≠ [] →
        breakCond mc md mg acc.headI.start (charsum acc)
          (acc.getLastD default) (some d) = false) →
      ∀ run ∈ splitRuns mc md mg data acc, runOk mc md mg run := by
  intro data
  induction data with
  | nil => intro acc _ _ run h; simp [splitRuns] at h
  | cons w rest ih =>
    intro acc Hacc Hjun run hrun
    rw [splitRuns] at hrun
    have Hlast := fun h => Hjun w rest rfl h
    by_cases hb : breakCond mc md mg ((acc ++ [w]).headI).start
        (charsum (acc ++ [w])) w rest.head? = true
    · rw [if_pos hb, List.mem_cons] at hrun
      rcases hrun with rfl | hrun
      · exact runOk_concat mc md mg acc w Hacc Hlast
      · exact ih [] (runOk_nil mc md mg) (by intro _ _ _ h; exact absurd rfl h) run hrun
    · rw [if_neg hb] at hrun
      have hb' : breakCond mc md mg ((acc ++ [w]).headI).start
          (charsum (acc ++ [w])) w rest.head? = false := by
        exact Bool.not_eq_true _ ▸ eq_false_of_ne_true hb
      refine ih (acc ++ [w]) (runOk_concat mc md mg acc w Hacc Hlast) ?_ run hrun
      intro d dr hrest _
      have hgl : (acc ++ [w]).getLastD default = w := List.getLastD_concat _ _ _
      rw [hgl]
      rw [hrest] at hb'
      exact hb'

/-- Every run of the top-level decomposition is break-free before its final
word. -/
theorem splitRuns_runOk_top (mc : Nat) (md mg : ℚ) (data : List Word) :
    ∀ run ∈ splitRuns mc md mg data [], runOk mc md mg run :=
  splitRuns_runOk mc md mg data [] (runOk_nil mc md mg)
    (fun _ _ _ h => absurd rfl h)

/-! ### Ordering of the emitted captions -/

theorem run_start_le_end :
    ∀ (run : List Word), run ≠ [] →
      (∀ w ∈ run, w.start ≤ w.«end») →
      List.Chain' (fun a b => a.«end» ≤ b.start) run →
      run.headI.start ≤ (run.getLastD default).«end»
  | [], h, _, _ => absurd rfl h
  | [a], _, hwf, _ => hwf a (by simp)
  | a :: b :: u, _, hwf, hchain => by
    have h1 : a.start ≤ a.«end» := hwf a (by simp)
    have h2 : a.«end» ≤ b.start := (List.chain'_cons.mp hchain).1
    have h3 := run_start_le_end (b :: u) (by simp)
      (fun w hw => hwf w (by simp [hw])) (List.chain'_cons.mp hchain).2
    calc a.start ≤ a.«end» := h1
      _ ≤ b.start := h2
      _ ≤ ((b :: u).getLastD default).«end» := h3

theorem runs_chain' :
    ∀ (runs : List (List Word)),
      (∀ r ∈ runs, r ≠ []) →
      (∀ w ∈ runs.flatten, w.start ≤ w.«end») →
      List.Chain' (fun a b => a.«end» ≤ b.start) runs.flatten →
      List.Chain' (fun a b : Caption => a.«end» ≤ b.start) (runs.map mkCaption) ∧
        ∀ c ∈ runs.map mkCaption, c.start ≤ c.«end»
  | [], _, _, _ => by simp
  | r :: rs, hne, hwf, hchain => by
    rw [List.flatten_cons] at hwf hchain
    obtain ⟨hcr, hcrest, hjun⟩ := List.chain'_append.mp hchain
    have hrne : r ≠ [] := hne r (by simp)
    have ihres := runs_chain' rs (fun l hl => hne l (by simp [hl]))
      (fun w hw => hwf w (by simp [hw])) hcrest
    have hstartend : (mkCaption r).start ≤ (mkCaption r).«end» :=
      run_start_le_end r hrne (fun w hw => hwf w (by simp [hw])) hcr
    constructor
    · rw [List.map_cons]
      cases rs with
      | nil => simp
      | cons r2 rs2 =>
        rw [List.map_cons]
        refine List.chain'_cons.mpr ⟨?_, by
          have := ihres.1
          rwa [List.map_cons] at this⟩
        have hr2ne : r2 ≠ [] := hne r2 (by simp)
        show (r.getLastD default).«end» ≤ (r2.headI).start
        have hgl : r.getLast? = some (r.getLastD default) := by
          cases r with
          | nil => exact absurd rfl hrne
          | cons a t =>
            rw [List.getLastD_eq_getLast?]
            cases hl : (a :: t).getLast? with
            | none => exact absurd (List.getLast?_eq_none_iff.mp hl) (by simp)
            | some x => rfl
        have hhd : ((r2 :: rs2).flatten).head? = some r2.headI := by
          rw [List.flatten_cons, List.head?_append_of_ne_nil _ hr2ne]
          cases r2 with
          | nil => exact absurd rfl hr2ne
          | cons a t => rfl
        exact hjun _ hgl _ hhd
    · intro c hc
      rw [List.map_cons, List.mem_cons] at hc
      rcases hc with rfl | hc
      · exact hstartend
      · exact ihres.2 c hc

theorem chain'_to_pairwise :
    ∀ (l : List Caption),
      (∀ c ∈ l, c.start ≤ c.«end») →
      List.Chain' (fun a b => a.«end» ≤ b.start) l →
      List.Pairwise (fun a b => a.«end» ≤ b.start ∧ a.start ≤ b.start) l
  | [], _, _ => by simp
  | a :: t, hs, hc => by
    have ht := chain'_to_pairwise t (fun c hct => hs c (by simp [hct])) hc.tail
    rw [List.pairwise_cons]
    refine ⟨?_, ht⟩
    intro b hb
    cases t with
    | nil => simp at hb
    | cons h u =>
      have hah : a.«end» ≤ h.start := (List.chain'_cons.mp hc).1
      have hsa : a.start ≤ a.«end» := hs a (by simp)
      rcases List.mem_cons.mp hb with rfl | hbu
      · exact ⟨hah, le_trans hsa hah⟩
      · have hhb := (List.pairwise_cons.mp ht).1 b hbu
        have hhse : h.start ≤ h.«end» := hs h (by simp)
        have hend : a.«end» ≤ b.start := le_trans hah (le_trans hhse hhb.1)
        exact ⟨hend, le_trans hsa hend⟩

/-! ### Language detection (`detect_language` in `subtitle_processor.py`) -/

/-- Character class of the CJK regex
`[一-鿿぀-ゟ゠-ヿ가-힯]`. -/
def is_cjk_char (c : Char) : Bool :=
  (0x4e00 ≤ c.toNat && c.toNat ≤ 0x9fff) ||
  (0x3040 ≤ c.toNat && c.toNat ≤ 0x309f) ||
  (0x30a0 ≤ c.toNat && c.toNat ≤ 0x30ff) ||
  (0xac00 ≤ c.toNat && c.toNat ≤ 0xd7af)

/-- Character class of the Devanagari regex `[ऀ-ॿ]`. -/
def is_devanagari_char (c : Char) : Bool :=
  0x900 ≤ c.toNat && c.toNat ≤ 0x97f

/-- Character class of the Arabic regex `[؀-ۿ]`. -/
def is_arabic_char (c : Char) : Bool :=
  0x600 ≤ c.toNat && c.toNat ≤ 0x6ff

/-- Function `detect_language` from `subtitle_processor.py`: empty text defaults to
latin, then the three `re.search` block tests in order, then latin. -/
def detect_language (text : String) : String :=
  if text.data.isEmpty then "latin"
  else if text.data.any is_cjk_char then "cjk"
  else if text.data.any is_devanagari_char then "devanagari"
  else if text.data.any is_arabic_char then "arabic"
  else "latin"

/-! ### SRT timestamp formatting (`generate_srt_file.format_time`) -/

/-- Python's float `%` for a positive modulus: `a - b * floor(a / b)`. -/
def pymod (a b : ℚ) : ℚ := a - b * ⌊a / b⌋

/-- Python's `f"{n:02d}"` for the values produced here (they are
non-negative). -/
def pad2 (n : ℤ) : String :=
  if 0 ≤ n ∧ n < 10 then "0" ++ toString n else toString n

/-- Python's `f"{n:03d}"` for the values produced here (they are
non-negative). -/
def pad3 (n : ℤ) : String :=
  if 0 ≤ n ∧ n < 10 then "00" ++ toString n
  else if 0 ≤ n ∧ n < 100 then "0" ++ toString n
  else toString n

/-- Function `format_time` from `generate_srt_file` in `subtitle_processor.py`:
`hours = int(seconds // 3600)`, `minutes = int((seconds % 3600) // 60)`,
`secs = int(seconds % 60)`, `millis = int((seconds % 1) * 1000)`, rendered
as `HH:MM:SS,mmm`.  (`int` truncation coincides with `⌊⌋` on these values
because `%` returns a value in `[0, modulus)`.) -/
def format_time (seconds : ℚ) : String :=
  pad2 ⌊seconds / 3600⌋ ++ ":" ++
  pad2 ⌊pymod seconds 3600 / 60⌋ ++ ":" ++
  pad2 ⌊pymod seconds 60⌋ ++ "," ++
  pad3 ⌊pymod seconds 1 * 1000⌋

/-! ### Target dimensions (`calculate_target_dimensions` in `video_composer.py`) -/

/-- Table `ASPECT_RATIO_DIMENSIONS` from `config.py`, as an association list of
association lists. -/
def ASPECT_RATIO_DIMENSIONS : List (String × List (String × (Nat × Nat))) :=
  [("9:16", [("High Quality", (1080, 1920)), ("Standard Quality", (720, 1280))]),
   ("4:5", [("High Quality", (1080, 1350)), ("Standard Quality", (720, 900))]),
   ("16:9", [("High Quality", (1920, 1080)), ("Standard Quality", (1280, 720))]),
   ("1:1", [("High Quality", (1080, 1080)), ("Standard Quality", (720, 720))])]

/-- Function `calculate_target_dimensions(aspect_ratio, quality)`: the nested
membership tests followed by the `(1080, 1920)` fallback. -/
def calculate_target_dimensions (ar quality : String) : Nat × Nat :=
  match ASPECT_RATIO_DIMENSIONS.lookup ar with
  | some table =>
    match table.lookup quality with
    | some wh => wh
    | none => (1080, 1920)
  | none => (1080, 1920)

/-! ### Background clip duration (`video_composer.py`)

moviepy clips are modelled by their durations: `clip.fx(vfx.speedx, f)`
divides the duration by `f`, `clip.subclip(a, b)` yields duration `b - a`,
and `concatenate_videoclips([clip] * n)` yields `n` times the duration. -/

/-- Duration of `clip.subclip(t_start, t_end)`. -/
def subclip_duration (t_start t_end : ℚ) : ℚ := t_end - t_start

/-- Value `repeats = int(target_duration / clip_duration) + 1` from the loop
branch of `get_random_subclip_and_slow` (both arguments are positive
there, so Python's `int` truncation is `⌊⌋`). -/
def loop_repeats (target_duration clip_duration : ℚ) : ℕ :=
  (⌊target_duration / clip_duration⌋).toNat + 1

/-- The duration of the clip returned by `get_random_subclip_and_slow`
(`video_composer.py`).  `start_time` stands for the value drawn by
`random.uniform(0, max_start)`; `target?` is `None` or the target
duration, and `if target_duration:` is Python truthiness (0 is falsy). -/
def get_random_subclip_and_slow (clip_duration : ℚ) (target? : Option ℚ)
    (slow_factor start_time : ℚ) : ℚ :=
  let clip := clip_duration / slow_factor
  match target? with
  | none => clip
  | some target_duration =>
    if target_duration = 0 then clip
    else if target_duration < clip then
      subclip_duration start_time (start_time + target_duration)
    else
      subclip_duration 0 target_duration

/-- The required background duration computed by `compose_video`:
`voiceover_duration + TITLE_DURATION if title_text else voiceover_duration`
(Python truthiness: `None` and `""` are falsy). -/
def composeTargetDuration (voiceover_duration : ℚ) (title_text : Option String) : ℚ :=
  match title_text with
  | some t => if t = "" then voiceover_duration else voiceover_duration + TITLE_DURATION
  | none => voiceover_duration

/-! ### Claim theorems -/

/-- C1: `split_text_into_lines` returns the empty list exactly on empty
input, and the space-join of the emitted lines' texts equals the
space-join of the input words — no word lost, none duplicated, order
preserved. -/
theorem C1_split_preserves_words (data : List Word) (mc : Nat) (md mg : ℚ) :
    (split_text_into_lines data mc md mg = [] ↔ data = []) ∧
    " ".intercalate ((split_text_into_lines data mc md mg).map Caption.text)
      = " ".intercalate (data.map Word.word) := by
  rcases eq_or_ne data [] with rfl | hne
  · exact ⟨by simp [split_text_into_lines, splitAux], rfl⟩
  · have hruns := split_eq_runs data mc md mg
    have hflat : (splitRuns mc md mg data []).flatten = data := by
      simpa using splitRuns_flatten mc md mg data [] hne
    have hrne := splitRuns_ne_nil mc md mg data []
    constructor
    · constructor
      · intro h
        rw [hruns, List.map_eq_nil_iff] at h
        rw [h] at hflat
        exact absurd hflat.symm hne
      · intro h
        exact absurd h hne
    · rw [hruns, List.map_map]
      rw [show (Caption.text ∘ mkCaption)
          = (String.intercalate " ") ∘ (List.map Word.word) from rfl]
      rw [← List.map_map (String.intercalate " ") (List.map Word.word)]
      rw [intercalate_map_intercalate " " _ (by
        intro l hl
        obtain ⟨r, hr, rfl⟩ := List.mem_map.mp hl
        simpa using hrne r hr)]
      rw [← List.map_flatten, hflat]

/-- C9: the emitted lines decompose the input into contiguous non-empty
runs, and inside any line with at least two words no break condition held
after a non-final word: the running character count stayed strictly below
`max_chars`, the elapsed duration strictly below `max_duration`, no
non-final word ends a sentence, and the gap to the following word stayed
strictly below `min_gap`. -/
theorem C9_no_break_inside_lines (data : List Word) (mc : Nat) (md mg : ℚ) :
    ∃ runs : List (List Word),
      split_text_into_lines data mc md mg = runs.map mkCaption ∧
      runs.flatten = data ∧
      (∀ run ∈ runs, run ≠ []) ∧
      ∀ run ∈ runs, ∀ p w1 w2 s, run = p ++ w1 :: w2 :: s →
        charsum (p ++ [w1]) < mc ∧
        w1.«end» - run.headI.start < md ∧
        is_sentence_end w1.word = false ∧
        w2.start - w1.«end» < mg := by
  refine ⟨splitRuns mc md mg data [], split_eq_runs data mc md mg, ?_,
    splitRuns_ne_nil mc md mg data [], ?_⟩
  · rcases eq_or_ne data [] with rfl | hne
    · rfl
    · simpa using splitRuns_flatten mc md mg data [] hne
  · intro run hrun p w1 w2 s heq
    have h := splitRuns_runOk_top mc md mg data run hrun p w1 w2 s heq
    simp only [breakCond, Bool.or_eq_false_iff, decide_eq_false_iff_not,
      not_le] at h
    obtain ⟨⟨⟨⟨h1, h2⟩, h3⟩, h4⟩, -⟩ := h
    exact ⟨h1, h2, h3, h4⟩

/-- C6: when the input words are well-formed (`start ≤ end`) and ordered
with no overlap (each word's end at most the next word's start), the
emitted caption lines are pairwise non-overlapping and their start times
are monotonically non-decreasing. -/
theorem C6_lines_ordered (data : List Word) (mc : Nat) (md mg : ℚ)
    (hwf : ∀ w ∈ data, w.start ≤ w.«end»)
    (hord : List.Chain' (fun a b => a.«end» ≤ b.start) data) :
    List.Pairwise (fun a b => a.«end» ≤ b.start ∧ a.start ≤ b.start)
      (split_text_into_lines data mc md mg) := by
  rcases eq_or_ne data [] with rfl | hne
  · simp [split_text_into_lines, splitAux]
  · have hruns := split_eq_runs data mc md mg
    have hflat : (splitRuns mc md mg data []).flatten = data := by
      simpa using splitRuns_flatten mc md mg data [] hne
    have hwf' : ∀ w ∈ (splitRuns mc md mg data []).flatten, w.start ≤ w.«end» := by
      rw [hflat]; exact hwf
    have hord' : List.Chain' (fun a b => a.«end» ≤ b.start)
        (splitRuns mc md mg data []).flatten := by
      rw [hflat]; exact hord
    have hres := runs_chain' (splitRuns mc md mg data [])
      (splitRuns_ne_nil mc md mg data []) hwf' hord'
    rw [hruns]
    exact chain'_to_pairwise _ hres.2 hres.1

/-- C6 witness: the ordering theorem applied to a concrete ordered
two-word stream. -/
theorem C6_lines_ordered_witness :
    List.Pairwise (fun a b => a.«end» ≤ b.start ∧ a.start ≤ b.start)
      (split_text_into_lines [⟨"a", 0, 1⟩, ⟨"b", 1, 2⟩] 60
        MAX_DURATION_PER_LINE MIN_GAP_BETWEEN_LINES) :=
  C6_lines_ordered [⟨"a", 0, 1⟩, ⟨"b", 1, 2⟩] 60
    MAX_DURATION_PER_LINE MIN_GAP_BETWEEN_LINES (by decide)
    (by norm_num [List.chain'_cons])

/-- C2 amended: every emitted line's running character count *before its
final word* is strictly below `max_chars` (single-word lines are
unconstrained, and no word is ever split): the accumulated count at flush
can exceed `max_chars` only by the final word's contribution. -/
theorem C2_char_cap_amended (data : List Word) (mc : Nat) (md mg : ℚ) :
    ∃ runs : List (List Word),
      split_text_into_lines data mc md mg = runs.map mkCaption ∧
      runs.flatten = data ∧
      ∀ run ∈ runs, ∀ p w1 w, run = p ++ [w1, w] →
        charsum (p ++ [w1]) < mc := by
  refine ⟨splitRuns mc md mg data [], split_eq_runs data mc md mg, ?_, ?_⟩
  · rcases eq_or_ne data [] with rfl | hne
    · rfl
    · simpa using splitRuns_flatten mc md mg data [] hne
  · intro run hrun p w1 w heq
    have h := splitRuns_runOk_top mc md mg data run hrun p w1 w [] heq
    simp only [breakCond, Bool.or_eq_false_iff, decide_eq_false_iff_not,
      not_le] at h
    exact h.1.1.1.1

/-- C2 counterexample: with `max_chars = 60` two 30-character words end up
on one emitted line, whose accumulated character count is 62 > 60 while
the line has two words — the claimed "count ≤ maxChars or exactly one
word" fails. -/
theorem C2_counterexample :
    split_text_into_lines
        [⟨"aaaaaaaaaaaaaaaaaaaaaaaaaaaaaa", 0, 1⟩,
         ⟨"bbbbbbbbbbbbbbbbbbbbbbbbbbbbbb", 1, 2⟩] 60
        MAX_DURATION_PER_LINE MIN_GAP_BETWEEN_LINES
      = [⟨"aaaaaaaaaaaaaaaaaaaaaaaaaaaaaa bbbbbbbbbbbbbbbbbbbbbbbbbbbbbb", 0, 2⟩] ∧
    splitRuns 60 MAX_DURATION_PER_LINE MIN_GAP_BETWEEN_LINES
        [⟨"aaaaaaaaaaaaaaaaaaaaaaaaaaaaaa", 0, 1⟩,
         ⟨"bbbbbbbbbbbbbbbbbbbbbbbbbbbbbb", 1, 2⟩] []
      = [[⟨"aaaaaaaaaaaaaaaaaaaaaaaaaaaaaa", 0, 1⟩,
          ⟨"bbbbbbbbbbbbbbbbbbbbbbbbbbbbbb", 1, 2⟩]] ∧
    charsum [⟨"aaaaaaaaaaaaaaaaaaaaaaaaaaaaaa", 0, 1⟩,
      ⟨"bbbbbbbbbbbbbbbbbbbbbbbbbbbbbb", 1, 2⟩] = 62 ∧
    ¬ (62 ≤ 60) ∧
    ([⟨"aaaaaaaaaaaaaaaaaaaaaaaaaaaaaa", 0, 1⟩,
      ⟨"bbbbbbbbbbbbbbbbbbbbbbbbbbbbbb", 1, 2⟩] : List Word).length ≠ 1 := by
  refine ⟨?_, ?_, by decide, by decide, by decide⟩
  · norm_num [split_text_into_lines, splitAux, breakCond, is_sentence_end,
      MAX_DURATION_PER_LINE, MIN_GAP_BETWEEN_LINES]
    decide
  · norm_num [splitRuns, breakCond, is_sentence_end, charsum,
      MAX_DURATION_PER_LINE, MIN_GAP_BETWEEN_LINES]
    decide

/-- C4 amended: under well-formed ordered input every emitted line has
`end ≥ start`; and every line's duration measured at its *penultimate*
word (`penultimate.end − line.start`) is strictly below `max_duration` —
the final word can push `end − start` itself past `max_duration` even on
a multi-word line. -/
theorem C4_duration_amended (data : List Word) (mc : Nat) (md mg : ℚ)
    (hwf : ∀ w ∈ data, w.start ≤ w.«end»)
    (hord : List.Chain' (fun a b => a.«end» ≤ b.start) data) :
    (∀ c ∈ split_text_into_lines data mc md mg, c.start ≤ c.«end») ∧
    ∃ runs : List (List Word),
      split_text_into_lines data mc md mg = runs.map mkCaption ∧
      runs.flatten = data ∧
      ∀ run ∈ runs, ∀ p w1 w, run = p ++ [w1, w] →
        w1.«end» - run.headI.start < md := by
  constructor
  · rcases eq_or_ne data [] with rfl | hne
    · intro c hc
      simp [split_text_into_lines, splitAux] at hc
    · have hflat : (splitRuns mc md mg data []).flatten = data := by
        simpa using splitRuns_flatten mc md mg data [] hne
      have hwf' : ∀ w ∈ (splitRuns mc md mg data []).flatten, w.start ≤ w.«end» := by
        rw [hflat]; exact hwf
      have hord' : List.Chain' (fun a b => a.«end» ≤ b.start)
          (splitRuns mc md mg data []).flatten := by
        rw [hflat]; exact hord
      have hres := runs_chain' (splitRuns mc md mg data [])
        (splitRuns_ne_nil mc md mg data []) hwf' hord'
      rw [split_eq_runs data mc md mg]
      exact hres.2
  · refine ⟨splitRuns mc md mg data [], split_eq_runs data mc md mg, ?_, ?_⟩
    · rcases eq_or_ne data [] with rfl | hne
      · rfl
      · simpa using splitRuns_flatten mc md mg data [] hne
    · intro run hrun p w1 w heq
      have h := splitRuns_runOk_top mc md mg data run hrun p w1 w [] heq
      simp only [breakCond, Bool.or_eq_false_iff, decide_eq_false_iff_not,
        not_le] at h
      exact h.1.1.1.2

/-- C4 witness: the amended duration theorem applied to a concrete ordered
two-word stream. -/
theorem C4_duration_amended_witness :
    (∀ c ∈ split_text_into_lines [⟨"a", 0, 1⟩, ⟨"b", 1, 3⟩] 60
        MAX_DURATION_PER_LINE MIN_GAP_BETWEEN_LINES, c.start ≤ c.«end») ∧
    ∃ runs : List (List Word),
      split_text_into_lines [⟨"a", 0, 1⟩, ⟨"b", 1, 3⟩] 60
          MAX_DURATION_PER_LINE MIN_GAP_BETWEEN_LINES = runs.map mkCaption ∧
      runs.flatten = [⟨"a", 0, 1⟩, ⟨"b", 1, 3⟩] ∧
      ∀ run ∈ runs, ∀ p w1 w, run = p ++ [w1, w] →
        w1.«end» - run.headI.start < MAX_DURATION_PER_LINE :=
  C4_duration_amended [⟨"a", 0, 1⟩, ⟨"b", 1, 3⟩] 60
    MAX_DURATION_PER_LINE MIN_GAP_BETWEEN_LINES (by decide)
    (by norm_num [List.chain'_cons])

/-- C4 counterexample: an ordered well-formed two-word input whose single
emitted line has `end − start = 5 > max_duration = 2.5` while containing
two words — "end − start ≤ maxDuration unless the line has exactly one
word" fails. -/
theorem C4_counterexample :
    (∀ w ∈ ([⟨"a", 0, 1⟩, ⟨"b", 1, 5⟩] : List Word), w.start ≤ w.«end») ∧
    List.Chain' (fun a b => a.«end» ≤ b.start)
      ([⟨"a", 0, 1⟩, ⟨"b", 1, 5⟩] : List Word) ∧
    split_text_into_lines [⟨"a", 0, 1⟩, ⟨"b", 1, 5⟩] 60
        MAX_DURATION_PER_LINE MIN_GAP_BETWEEN_LINES = [⟨"a b", 0, 5⟩] ∧
    splitRuns 60 MAX_DURATION_PER_LINE MIN_GAP_BETWEEN_LINES
        [⟨"a", 0, 1⟩, ⟨"b", 1, 5⟩] []
      = [[⟨"a", 0, 1⟩, ⟨"b", 1, 5⟩]] ∧
    ¬ ((5 : ℚ) - 0 ≤ MAX_DURATION_PER_LINE) ∧
    ([⟨"a", 0, 1⟩, ⟨"b", 1, 5⟩] : List Word).length ≠ 1 := by
  refine ⟨by decide, by norm_num [List.chain'_cons], ?_, ?_,
    by norm_num [MAX_DURATION_PER_LINE], by decide⟩
  · norm_num [split_text_into_lines, splitAux, breakCond, is_sentence_end,
      MAX_DURATION_PER_LINE, MIN_GAP_BETWEEN_LINES]
    decide
  · norm_num [splitRuns, breakCond, is_sentence_end, charsum,
      MAX_DURATION_PER_LINE, MIN_GAP_BETWEEN_LINES]
    decide

/-- C8: the three-word scenario: one line, flushed by the sentence-terminal
rule on `"friend."` while the character count (17 < 60), the elapsed
duration (1.3 < 2.5) and the inter-word gaps (0 < 1.5) are all below their
caps. -/
theorem C8_scenario :
    split_text_into_lines
        [⟨"Hi", 0, 3/10⟩, ⟨"there", 3/10, 7/10⟩, ⟨"friend.", 7/10, 13/10⟩]
        60 (5/2) (3/2)
      = [⟨"Hi there friend.", 0, 13/10⟩] ∧
    is_sentence_end "friend." = true ∧
    charsum [⟨"Hi", 0, 3/10⟩, ⟨"there", 3/10, 7/10⟩,
      ⟨"friend.", 7/10, 13/10⟩] = 17 ∧
    ¬ (60 ≤ 17) ∧
    ¬ ((5/2 : ℚ) ≤ 13/10 - 0) ∧
    ¬ ((3/2 : ℚ) ≤ 3/10 - 3/10) ∧
    ¬ ((3/2 : ℚ) ≤ 7/10 - 7/10) := by
  refine ⟨?_, by decide, by decide, by decide, by norm_num, by norm_num,
    by norm_num⟩
  have h1 : is_sentence_end "Hi" = false := by decide
  have h2 : is_sentence_end "there" = false := by decide
  have h3 : is_sentence_end "friend." = true := by decide
  have l1 : ("Hi" : String).length = 2 := by decide
  have l2 : ("there" : String).length = 5 := by decide
  have l3 : ("friend." : String).length = 7 := by decide
  have hic : " ".intercalate ["Hi", "there", "friend."] = "Hi there friend." := by
    decide
  norm_num [split_text_into_lines, splitAux, breakCond, h1, h2, h3, l1, l2,
    l3, hic]

/-- C3: the SRT time formatter renders 12.345 s as `00:00:12,345` and
3661.0 s as `01:01:01,000` — zero-padded `HH:MM:SS,mmm` with a comma
before the milliseconds. -/
theorem C3_format_time :
    format_time (12345 / 1000) = "00:00:12,345" ∧
    format_time 3661 = "01:01:01,000" := by
  constructor
  · have h1 : ⌊(12345 / 1000 : ℚ) / 3600⌋ = 0 := by
      rw [Int.floor_eq_iff]
      norm_num
    have hm1 : pymod (12345 / 1000 : ℚ) 3600 = 12345 / 1000 := by
      rw [pymod, h1]
      norm_num
    have h2 : ⌊pymod (12345 / 1000 : ℚ) 3600 / 60⌋ = 0 := by
      rw [hm1, Int.floor_eq_iff]
      norm_num
    have h3 : ⌊pymod (12345 / 1000 : ℚ) 60⌋ = 12 := by
      have hf : ⌊(12345 / 1000 : ℚ) / 60⌋ = 0 := by
        rw [Int.floor_eq_iff]
        norm_num
      have : pymod (12345 / 1000 : ℚ) 60 = 12345 / 1000 := by
        rw [pymod, hf]
        norm_num
      rw [this, Int.floor_eq_iff]
      norm_num
    have h4 : ⌊pymod (12345 / 1000 : ℚ) 1 * 1000⌋ = 345 := by
      have hf : ⌊(12345 / 1000 : ℚ) / 1⌋ = 12 := by
        rw [Int.floor_eq_iff]
        norm_num
      have : pymod (12345 / 1000 : ℚ) 1 = 345 / 1000 := by
        rw [pymod, hf]
        norm_num
      rw [this, show (345 / 1000 : ℚ) * 1000 = 345 by norm_num,
        Int.floor_eq_iff]
      norm_num
    rw [format_time, h1, h2, h3, h4]
    decide
  · have h1 : ⌊(3661 : ℚ) / 3600⌋ = 1 := by
      rw [Int.floor_eq_iff]
      norm_num
    have hm1 : pymod (3661 : ℚ) 3600 = 61 := by
      rw [pymod, h1]
      norm_num
    have h2 : ⌊pymod (3661 : ℚ) 3600 / 60⌋ = 1 := by
      rw [hm1, Int.floor_eq_iff]
      norm_num
    have h3 : ⌊pymod (3661 : ℚ) 60⌋ = 1 := by
      have hf : ⌊(3661 : ℚ) / 60⌋ = 61 := by
        rw [Int.floor_eq_iff]
        norm_num
      have : pymod (3661 : ℚ) 60 = 1 := by
        rw [pymod, hf]
        norm_num
      rw [this, Int.floor_one]
    have h4 : ⌊pymod (3661 : ℚ) 1 * 1000⌋ = 0 := by
      have hf : ⌊(3661 : ℚ) / 1⌋ = 3661 := by
        rw [Int.floor_eq_iff]
        norm_num
      have : pymod (3661 : ℚ) 1 = 0 := by
        rw [pymod, hf]
        norm_num
      rw [this]
      norm_num
    rw [format_time, h1, h2, h3, h4]
    decide

/-! ### `detect_language` helper lemmas -/

theorem detect_language_cjk (t : String) (h : ∃ c ∈ t.data, is_cjk_char c) :
    detect_language t = "cjk" := by
  obtain ⟨c, hc, hcjk⟩ := h
  have h1 : t.data.isEmpty = false := by
    cases hd : t.data with
    | nil => rw [hd] at hc; simp at hc
    | cons a l => rfl
  have h2 : t.data.any is_cjk_char = true := List.any_eq_true.mpr ⟨c, hc, hcjk⟩
  simp [detect_language, h1, h2]

theorem detect_language_devanagari (t : String)
    (h0 : ∀ c ∈ t.data, ¬ is_cjk_char c)
    (h : ∃ c ∈ t.data, is_devanagari_char c) :
    detect_language t = "devanagari" := by
  obtain ⟨c, hc, hdev⟩ := h
  have h1 : t.data.isEmpty = false := by
    cases hd : t.data with
    | nil => rw [hd] at hc; simp at hc
    | cons a l => rfl
  have h2 : t.data.any is_cjk_char = false := List.any_eq_false.mpr h0
  have h3 : t.data.any is_devanagari_char = true :=
    List.any_eq_true.mpr ⟨c, hc, hdev⟩
  simp [detect_language, h1, h2, h3]

theorem detect_language_arabic (t : String)
    (h0 : ∀ c ∈ t.data, ¬ is_cjk_char c ∧ ¬ is_devanagari_char c)
    (h : ∃ c ∈ t.data, is_arabic_char c) :
    detect_language t = "arabic" := by
  obtain ⟨c, hc, hara⟩ := h
  have h1 : t.data.isEmpty = false := by
    cases hd : t.data with
    | nil => rw [hd] at hc; simp at hc
    | cons a l => rfl
  have h2 : t.data.any is_cjk_char = false :=
    List.any_eq_false.mpr (fun c hc => (h0 c hc).1)
  have h3 : t.data.any is_devanagari_char = false :=
    List.any_eq_false.mpr (fun c hc => (h0 c hc).2)
  have h4 : t.data.any is_arabic_char = true :=
    List.any_eq_true.mpr ⟨c, hc, hara⟩
  simp [detect_language, h1, h2, h3, h4]

theorem detect_language_latin (t : String)
    (h0 : ∀ c ∈ t.data,
      ¬ is_cjk_char c ∧ ¬ is_devanagari_char c ∧ ¬ is_arabic_char c) :
    detect_language t = "latin" := by
  cases hd : t.data.isEmpty with
  | true => simp [detect_language, hd]
  | false =>
    have h2 : t.data.any is_cjk_char = false :=
      List.any_eq_false.mpr (fun c hc => (h0 c hc).1)
    have h3 : t.data.any is_devanagari_char = false :=
      List.any_eq_false.mpr (fun c hc => (h0 c hc).2.1)
    have h4 : t.data.any is_arabic_char = false :=
      List.any_eq_false.mpr (fun c hc => (h0 c hc).2.2)
    simp [detect_language, hd, h2, h3, h4]

/-- C7 amended: `detect_language` tests, in the fixed priority order cjk,
devanagari, arabic, whether the text contains a character of the
corresponding Unicode blocks, returning the first match and defaulting to
latin when none match or the text is empty.  It returns `"cjk"` for any
text containing U+4E2D and `"latin"` for `"Hello"`; it returns `"arabic"`
for any text that contains U+0627 and contains no cjk and no devanagari
character. -/
theorem C7_detect_language_amended :
    (∀ t : String, (∃ c ∈ t.data, is_cjk_char c) → detect_language t = "cjk") ∧
    (∀ t : String, (∀ c ∈ t.data, ¬ is_cjk_char c) →
      (∃ c ∈ t.data, is_devanagari_char c) → detect_language t = "devanagari") ∧
    (∀ t : String, (∀ c ∈ t.data, ¬ is_cjk_char c ∧ ¬ is_devanagari_char c) →
      (∃ c ∈ t.data, is_arabic_char c) → detect_language t = "arabic") ∧
    (∀ t : String, (∀ c ∈ t.data,
        ¬ is_cjk_char c ∧ ¬ is_devanagari_char c ∧ ¬ is_arabic_char c) →
      detect_language t = "latin") ∧
    (∀ t : String, '中' ∈ t.data → detect_language t = "cjk") ∧
    detect_language "Hello" = "latin" ∧
    (∀ t : String, 'ا' ∈ t.data →
      (∀ c ∈ t.data, ¬ is_cjk_char c ∧ ¬ is_devanagari_char c) →
      detect_language t = "arabic") :=
  ⟨detect_language_cjk, detect_language_devanagari, detect_language_arabic,
    detect_language_latin,
    fun t ht => detect_language_cjk t ⟨'中', ht, by decide⟩,
    by decide,
    fun t ht h0 => detect_language_arabic t h0 ⟨'ا', ht, by decide⟩⟩

/-- C7 counterexample: the text `"中ا"` contains U+0627 yet
`detect_language` returns `"cjk"`, not `"arabic"` — the claimed "arabic
for any text containing U+0627" fails when a higher-priority block is also
present. -/
theorem C7_counterexample :
    ('ا' ∈ ("中ا" : String).data) ∧
    detect_language "中ا" = "cjk" ∧ "cjk" ≠ "arabic" := by
  decide

/-- C10: `calculate_target_dimensions` returns the table entry whenever
the aspect ratio and the quality tier are both present in
`ASPECT_RATIO_DIMENSIONS`, returns the `(1080, 1920)` fallback whenever
either key is missing, and is total; the eight table entries evaluate as
listed in `config.py`. -/
theorem C10_target_dimensions (ar q : String) :
    (ASPECT_RATIO_DIMENSIONS.lookup ar = none →
      calculate_target_dimensions ar q = (1080, 1920)) ∧
    (∀ table, ASPECT_RATIO_DIMENSIONS.lookup ar = some table →
      (table.lookup q = none →
        calculate_target_dimensions ar q = (1080, 1920)) ∧
      (∀ wh, table.lookup q = some wh →
        calculate_target_dimensions ar q = wh)) ∧
    calculate_target_dimensions "9:16" "High Quality" = (1080, 1920) ∧
    calculate_target_dimensions "9:16" "Standard Quality" = (720, 1280) ∧
    calculate_target_dimensions "4:5" "High Quality" = (1080, 1350) ∧
    calculate_target_dimensions "4:5" "Standard Quality" = (720, 900) ∧
    calculate_target_dimensions "16:9" "High Quality" = (1920, 1080) ∧
    calculate_target_dimensions "16:9" "Standard Quality" = (1280, 720) ∧
    calculate_target_dimensions "1:1" "High Quality" = (1080, 1080) ∧
    calculate_target_dimensions "1:1" "Standard Quality" = (720, 720) := by
  refine ⟨?_, ?_, by decide, by decide, by decide, by decide, by decide,
    by decide, by decide, by decide⟩
  · intro h
    simp [calculate_target_dimensions, h]
  · intro table ht
    constructor
    · intro h
      simp [calculate_target_dimensions, ht, h]
    · intro wh h
      simp [calculate_target_dimensions, ht, h]

/-- C5: for positive narration duration and positive slowed footage, the
background clip prepared by `compose_video` has duration exactly
`narrationDuration + TITLE_DURATION` when a (truthy) title is present and
exactly `narrationDuration` otherwise; when the slowed footage does not
exceed the requirement, the `int(target/clip) + 1` end-to-end repetitions
strictly exceed the requirement before trimming; when it does exceed it,
any start offset drawn from `[0, slowed − required]` yields a window
`[offset, offset + required]` lying inside the slowed footage. -/
theorem C5_background_duration (clip_duration slow_factor voiceover_duration
    start_time : ℚ) (title_text : Option String)
    (hslow : 0 < clip_duration / slow_factor)
    (hvd : 0 < voiceover_duration) :
    get_random_subclip_and_slow clip_duration
        (some (composeTargetDuration voiceover_duration title_text))
        slow_factor start_time
      = composeTargetDuration voiceover_duration title_text ∧
    (clip_duration / slow_factor
        ≤ composeTargetDuration voiceover_duration title_text →
      composeTargetDuration voiceover_duration title_text
        < (loop_repeats (composeTargetDuration voiceover_duration title_text)
            (clip_duration / slow_factor) : ℚ) * (clip_duration / slow_factor)) ∧
    (composeTargetDuration voiceover_duration title_text
        < clip_duration / slow_factor →
      0 ≤ start_time →
      start_time ≤ clip_duration / slow_factor
        - composeTargetDuration voiceover_duration title_text →
      0 ≤ start_time ∧
        start_time + composeTargetDuration voiceover_duration title_text
          ≤ clip_duration / slow_factor) := by
  have htd : 0 < composeTargetDuration voiceover_duration title_text := by
    cases title_text with
    | none => exact hvd
    | some t =>
      simp only [composeTargetDuration]
      by_cases ht : t = ""
      · rw [if_pos ht]; exact hvd
      · rw [if_neg ht]
        have : (0 : ℚ) < TITLE_DURATION := by norm_num [TITLE_DURATION]
        linarith
  refine ⟨?_, ?_, ?_⟩
  · simp only [get_random_subclip_and_slow]
    rw [if_neg (ne_of_gt htd)]
    by_cases hlt : composeTargetDuration voiceover_duration title_text
        < clip_duration / slow_factor
    · rw [if_pos hlt]
      unfold subclip_duration
      ring
    · rw [if_neg hlt]
      unfold subclip_duration
      ring
  · intro hle
    set td := composeTargetDuration voiceover_duration title_text with htddef
    set clip := clip_duration / slow_factor with hclipdef
    have h2 : (0 : ℤ) ≤ ⌊td / clip⌋ := by
      apply Int.floor_nonneg.mpr
      positivity
    have h1 : td / clip < ⌊td / clip⌋ + 1 := Int.lt_floor_add_one _
    rw [div_lt_iff₀ hslow] at h1
    have h3 : ((⌊td / clip⌋.toNat : ℕ) : ℚ) = ((⌊td / clip⌋ : ℤ) : ℚ) := by
      exact_mod_cast Int.toNat_of_nonneg h2
    unfold loop_repeats
    push_cast
    rw [h3]
    exact h1
  · intro _ h0 hle
    exact ⟨h0, by linarith⟩

/-- C5 witness: the duration theorem at footage of duration 10 (slow
factor 1), narration 2 s and no title. -/
theorem C5_background_duration_witness :
    get_random_subclip_and_slow 10 (some (composeTargetDuration 2 none)) 1 3
      = composeTargetDuration 2 none ∧
    ((10 : ℚ) / 1 ≤ composeTargetDuration 2 none →
      composeTargetDuration 2 none
        < (loop_repeats (composeTargetDuration 2 none) ((10 : ℚ) / 1) : ℚ)
            * ((10 : ℚ) / 1)) ∧
    (composeTargetDuration 2 none < (10 : ℚ) / 1 →
      0 ≤ (3 : ℚ) →
      (3 : ℚ) ≤ (10 : ℚ) / 1 - composeTargetDuration 2 none →
      0 ≤ (3 : ℚ) ∧ (3 : ℚ) + composeTargetDuration 2 none ≤ (10 : ℚ) / 1) :=
  C5_background_duration 10 1 2 3 none (by norm_num) (by norm_num)

end Claud
